import Mathlib

/-!
Verification of the rjsone context-specification parser and content-evaluation
engine: a shallow embedding of the Go source (`context.go` drives the argument
mini-language; `main.go` drives context merging) together with theorems about
the embedded definitions.

Strings are modelled as Lean `String`; the Go code only slices after matching
single-byte ASCII prefixes, so byte slicing and character dropping agree on
every input the code inspects.  External collaborators (YAML/JSON codecs, the
filesystem, standard input, process execution, the mergo merge library) are
modelled as components of an explicit environment, as the specification treats
them as opaque boundaries.
-/

namespace Rjsone

/-- Head-character test: models Go `strings.HasPrefix(s, c)` for a one-byte ASCII c. -/
def headIs (c : Char) (s : String) : Bool :=
  match s.toList with
  | [] => false
  | x :: _ => x == c

/-- Two-character head test: models Go `strings.HasPrefix(s, cc)` for two ASCII bytes. -/
def headIs2 (c₁ c₂ : Char) (s : String) : Bool :=
  match s.toList with
  | x :: y :: _ => x == c₁ && y == c₂
  | _ => false

/-- Models Go string slicing `s[n:]` after an ASCII prefix of length n was matched. -/
def strDrop (n : Nat) (s : String) : String :=
  String.mk (s.toList.drop n)

/-- Split a character list at the first occurrence of `c`; `none` when absent. -/
def splitCharAux (c : Char) : List Char → Option (List Char × List Char)
  | [] => none
  | x :: xs =>
    if x = c then some ([], xs)
    else
      match splitCharAux c xs with
      | none => none
      | some (a, b) => some (x :: a, b)

/-- Models Go `strings.SplitN(s, c, 2)` (for a one-byte separator), as the
optional pair of the part before the first separator and the remainder. -/
def splitFirstChar (c : Char) (s : String) : Option (String × String) :=
  match splitCharAux c s.toList with
  | none => none
  | some (a, b) => some (String.mk a, String.mk b)

/-- Full split on every occurrence of `c` over a character list; models Go
`strings.Split` semantics (splitting the empty string yields one empty part). -/
def splitAllCharAux (c : Char) : List Char → List (List Char)
  | [] => [[]]
  | x :: xs =>
    if x = c then [] :: splitAllCharAux c xs
    else
      match splitAllCharAux c xs with
      | [] => [[x]]
      | a :: rest => (x :: a) :: rest

/-- Models Go `strings.Split(s, c)` for a one-byte separator. -/
def splitAllChar (c : Char) (s : String) : List String :=
  (splitAllCharAux c s.toList).map String.mk

/-- Models Go `strings.TrimSuffix(s, suf)`. -/
def trimSuffixStr (s suf : String) : String :=
  if suf.toList.isSuffixOf s.toList then String.mk (s.toList.take (s.toList.length - suf.toList.length))
  else s

/-- Models Go `path.Base`: the last slash-separated component, after trailing
slashes are removed; "." for the empty path, "/" for an all-slash path. -/
def pathBase (s : String) : String :=
  if s = "" then "."
  else
    let t := (s.toList.reverse.dropWhile (· = '/')).reverse
    if t = [] then "/"
    else
      match (splitAllCharAux '/' t).getLast? with
      | some last => String.mk last
      | none => String.mk t

/-- Scan a reversed character list for the extension: models the loop of Go
`filepath.Ext` (characters after the final dot of the final path element). -/
def extRevAux : List Char → List Char → List Char
  | [], _ => []
  | c :: rest, acc =>
    if c = '/' then []
    else if c = '.' then c :: acc
    else extRevAux rest (c :: acc)

/-- Models Go `filepath.Ext` on a Unix path. -/
def fileExtOf (s : String) : String :=
  String.mk (extRevAux s.toList.reverse [])

/-- Template values: the JSON-compatible data handled by the engine, plus the
callable produced for a Function node (which captures the split command line
and the two rawness flags, exactly the data the Go closure captures). -/
inductive Value where
  | null : Value
  | bool : Bool → Value
  | num : Int → Value
  | str : String → Value
  | arr : List Value → Value
  | obj : List (String × Value) → Value
  | func : Bool → Bool → List String → Value

/-- First-match lookup in an object association list (Go map indexing). -/
def objLookup (m : List (String × Value)) (k : String) : Option Value :=
  match m with
  | [] => none
  | (k', v) :: rest => if k' = k then some v else objLookup rest k

/-- Go map assignment `m[k] = v`: replace the binding in place, else append. -/
def objUpdate (m : List (String × Value)) (k : String) (v : Value) : List (String × Value) :=
  match m with
  | [] => [(k, v)]
  | (k', v') :: rest => if k' = k then (k, v) :: rest else (k', v') :: objUpdate rest k v

mutual
/-- Content nodes, mirroring the Go sum of content implementations
(`fileContent`, `stdinContent`, `textContent`, `functionContent`,
`listContent`), each carrying its fields in source order. -/
inductive ContentNode where
  | file : String → String → ContentNode
  | stdinC : String → ContentNode
  | textC : String → String → ContentNode
  | functionC : Bool → Bool → String → ContentNode
  | listC : List Ctx → Bool → String → ContentNode

/-- A parsed context entry: the Go `context` struct holding the original
argument string, the key and the content node. -/
inductive Ctx where
  | mk : String → String → ContentNode → Ctx
end

/-- The original argument string stored in a parsed context entry. -/
def Ctx.original : Ctx → String
  | .mk o _ _ => o

/-- The key stored in a parsed context entry. -/
def Ctx.key : Ctx → String
  | .mk _ k _ => k

/-- The content node stored in a parsed context entry. -/
def Ctx.content : Ctx → ContentNode
  | .mk _ _ c => c

/-- Models `parseFormat` from context parsing: an entry spec `:format:data`
is split into its optional format token and its data token. -/
def parseFormat (s : String) : Option String × String :=
  if headIs ':' s then
    let c := strDrop 1 s
    if headIs '+' c then (some "yaml", c)
    else
      match splitFirstChar ':' c with
      | none => (none, c)
      | some (f, d) => (some f, d)
  else (none, s)

/-- The switch at the end of `parseContent`, classifying the data token by
prefix once the format is resolved.  The Stdin branch mirrors the source
exactly: the resolved format is not stored on the node, leaving the node's
format at the Go zero value `""`. -/
def classifyData (format data : String) : ContentNode :=
  if data = ".." then ContentNode.listC [] false format
  else if data = "..." then ContentNode.listC [] true format
  else if headIs '+' data then ContentNode.textC format (strDrop 1 data)
  else if data = "-" then ContentNode.stdinC ""
  else if headIs2 '-' '-' data then ContentNode.functionC (format == "text") true (strDrop 2 data)
  else if headIs '-' data then ContentNode.functionC (format == "text") false (strDrop 1 data)
  else ContentNode.file format data

/-- The format resolution at the head of `parseContent`: no format token
inherits the open list's child format (default "yaml" at top level), the
empty format token means "text", any other token is taken as-is. -/
def resolveFormat (fmtToken : Option String) (lcFormat : Option String) : String :=
  match fmtToken with
  | none => match lcFormat with | none => "yaml" | some f => f
  | some "" => "text"
  | some f => f

/-- Models `parseContent`: resolve the format (inheriting the open list's
child format when no explicit format is given), then classify the data
token. -/
def parseContent (rawContent : String) (lcFormat : Option String) : ContentNode :=
  let p := parseFormat rawContent
  classifyData (resolveFormat p.1 lcFormat) p.2

/-- The key extracted from one raw argument (Go: empty for `+`-prefixed
arguments, else the part before the first colon, empty when there is none). -/
def argKeyOf (arg : String) : String :=
  if headIs '+' arg then ""
  else
    match splitFirstChar ':' arg with
    | none => ""
    | some (k, _) => k

/-- The raw content passed to `parseContent` for one argument (Go: the whole
argument when `+`-prefixed or colon-free, else `":" + remainder`). -/
def rawContentOf (arg : String) : String :=
  if headIs '+' arg then arg
  else
    match splitFirstChar ':' arg with
    | none => arg
    | some (_, rest) => ":" ++ rest

/-- The state of the currently open list during parsing: the Go code keeps a
pointer to a `listContent` it mutates; functionally we carry its fields and
accumulated children until the list is closed. -/
structure OpenList where
  original : String
  key : String
  showMetadata : Bool
  childFormat : String
  children : List Ctx

/-- Close the open list, if any, appending the completed List entry at its
creation position (no top-level entry is ever appended while a list is open,
so the position is preserved). -/
def flushOpen : List Ctx × Option OpenList → List Ctx
  | (fin, none) => fin
  | (fin, some ol) =>
    fin ++ [Ctx.mk ol.original ol.key (ContentNode.listC ol.children ol.showMetadata ol.childFormat)]

/-- One step of `parseContexts`: a keyed argument first closes any open list;
the parsed content then either opens a fresh list, joins the open list, or
becomes a top-level entry. -/
def parseStep (st : List Ctx × Option OpenList) (arg : String) : List Ctx × Option OpenList :=
  let key := argKeyOf arg
  let st' := if key = "" then st else (flushOpen st, none)
  let lcFmt := match st'.2 with | none => none | some ol => some ol.childFormat
  let c := parseContent (rawContentOf arg) lcFmt
  match c with
  | ContentNode.listC _ meta fmt => (flushOpen st', some ⟨arg, key, meta, fmt, []⟩)
  | _ =>
    match st'.2 with
    | some ol => (st'.1, some { ol with children := ol.children ++ [Ctx.mk arg key c] })
    | none => (st'.1 ++ [Ctx.mk arg key c], none)

/-- Models `parseContexts`: fold the step over the arguments, then close any
list still open. -/
def parseContexts (args : List String) : List Ctx :=
  flushOpen (args.foldl parseStep ([], none))

/-- The environment of external collaborators the engine runs against: the
filesystem, the process-wide standard input, the YAML and JSON codecs and
the process spawner.  The engine treats each as an opaque byte boundary. -/
structure Env where
  fileSys : String → Except String String
  stdinBytes : Except String String
  yamlDecode : String → Except String Value
  jsonDecode : String → Except String Value
  jsonEncode : Value → Except String String
  runProc : List String → String → Except String String

/-- Single kv line handling inside `loadBytes`: models the loop body that
skips empty lines, splits on the first space and assigns into the result map,
failing on a line without a space. -/
def kvLinesAux : List String → List (String × Value) → Except String (List (String × Value))
  | [], acc => Except.ok acc
  | l :: rest, acc =>
    if l = "" then kvLinesAux rest acc
    else
      match splitFirstChar ' ' l with
      | none => Except.error ("line not in kv format: \"" ++ l ++ "\"")
      | some (a, b) => kvLinesAux rest (objUpdate acc a (Value.str b))

/-- Models `loadBytes`: dispatch on the format name; json/yaml decoding goes
through the environment's codecs, text is the identity, kv is decoded by the
in-source loop, and any other format (including the empty string) is an
error. -/
def loadBytes (env : Env) (format data : String) : Except String Value :=
  if format = "json" then env.jsonDecode data
  else if format = "yaml" then env.yamlDecode data
  else if format = "text" then Except.ok (Value.str data)
  else if format = "kv" then
    match kvLinesAux (splitAllChar '\n' data) [] with
    | Except.error e => Except.error e
    | Except.ok m => Except.ok (Value.obj m)
  else Except.error ("format \"" ++ format ++ "\" not supported")

/-- Models `fileContent.metadata`: filename, basename and extension-stripped
name for a File node; every other variant contributes an empty map. -/
def metadataOf : ContentNode → List (String × Value)
  | ContentNode.file _ filename =>
    let basename := pathBase filename
    [("filename", Value.str filename),
     ("basename", Value.str basename),
     ("name", Value.str (trimSuffixStr basename (fileExtOf basename)))]
  | _ => []

/-- Models the external mergo library's default (non-override) merge as used
on the per-element metadata maps: keys absent from the destination are added
from the source, existing destination keys are kept (the two maps involved
are always disjoint in this code path). -/
def mergoAddAbsent (dst src : List (String × Value)) : List (String × Value) :=
  match src with
  | [] => dst
  | (k, v) :: rest =>
    match objLookup dst k with
    | some _ => mergoAddAbsent dst rest
    | none => mergoAddAbsent (dst ++ [(k, v)]) rest

mutual
/-- Models the `load` method of each content variant.  File and Stdin read
bytes through the environment and decode via `loadBytes`; Text decodes its
literal; Function yields the callable value capturing the space-split command
line and the rawness flags; List evaluates its children in order. -/
def loadContent (env : Env) : ContentNode → Except String Value
  | ContentNode.file format filename =>
    match env.fileSys filename with
    | Except.error e => Except.error e
    | Except.ok bytes => loadBytes env format bytes
  | ContentNode.stdinC format =>
    match env.stdinBytes with
    | Except.error e => Except.error e
    | Except.ok bytes => loadBytes env format bytes
  | ContentNode.textC format text => loadBytes env format text
  | ContentNode.functionC rawIn rawOut f =>
    Except.ok (Value.func rawIn rawOut (splitAllChar ' ' f))
  | ContentNode.listC ctxs meta _ =>
    match loadListAux env meta ctxs with
    | Except.error e => Except.error e
    | Except.ok l => Except.ok (Value.arr l)

/-- Models the loop of `listContent.load`: evaluate each child; without
metadata collect the plain values, with metadata wrap each value as a
`content` map merged with the child's metadata. -/
def loadListAux (env : Env) (meta : Bool) : List Ctx → Except String (List Value)
  | [] => Except.ok []
  | c :: rest =>
    match evalCtx env c with
    | Except.error e => Except.error e
    | Except.ok v =>
      let element :=
        if meta then Value.obj (mergoAddAbsent [("content", v)] (metadataOf c.content))
        else v
      match loadListAux env meta rest with
      | Except.error e => Except.error e
      | Except.ok l => Except.ok (element :: l)

/-- Models `context.eval`: load the content, then wrap the result in a
single-entry mapping when the entry has a key. -/
def evalCtx (env : Env) : Ctx → Except String Value
  | Ctx.mk _ key c =>
    match loadContent env c with
    | Except.error e => Except.error e
    | Except.ok result =>
      if key ≠ "" then Except.ok (Value.obj [(key, result)]) else Except.ok result
end

/-- Models `castToStrings`: every call argument must be a plain string. -/
def castToStrings : List Value → Except String (List String)
  | [] => Except.ok []
  | v :: rest =>
    match v with
    | Value.str s =>
      match castToStrings rest with
      | Except.error e => Except.error e
      | Except.ok l => Except.ok (s :: l)
    | _ => Except.error "function command line arguments must be strings (use stdin or $json)"

/-- The Go call sites discard the error returned by `castToStrings` (the
`err` is immediately overwritten); on failure the argument slice is nil, so
the command line gains no extra arguments.  This helper reproduces exactly
that value flow. -/
def castDroppingError (args : List Value) : List String :=
  match castToStrings args with
  | Except.error _ => []
  | Except.ok l => l

/-- Models the rawInput=true, rawOutput=true closure of
`functionContent.load`: raw stdin bytes in, raw captured stdout out. -/
def callRawRaw (env : Env) (commandArray : List String) (args : List Value)
    (stdin : String) : Except String String :=
  let stringArgs := castDroppingError args
  match env.runProc (commandArray ++ stringArgs) stdin with
  | Except.error e => Except.error e
  | Except.ok stdoutBytes => Except.ok stdoutBytes

/-- Models the rawInput=true, rawOutput=false closure of
`functionContent.load`: raw stdin bytes in, YAML-decoded stdout out. -/
def callRawStructured (env : Env) (commandArray : List String) (args : List Value)
    (stdin : String) : Except String Value :=
  let stringArgs := castDroppingError args
  match env.runProc (commandArray ++ stringArgs) stdin with
  | Except.error e => Except.error e
  | Except.ok stdoutBytes =>
    match env.yamlDecode stdoutBytes with
    | Except.error e => Except.error e
    | Except.ok o => Except.ok o

/-- Models the rawInput=false, rawOutput=true closure of
`functionContent.load`: JSON-serialized structured stdin in, raw captured
stdout out. -/
def callStructuredRaw (env : Env) (commandArray : List String) (args : List Value)
    (stdin : Value) : Except String String :=
  match env.jsonEncode stdin with
  | Except.error e => Except.error e
  | Except.ok jsonBytes =>
    let stringArgs := castDroppingError args
    match env.runProc (commandArray ++ stringArgs) jsonBytes with
    | Except.error e => Except.error e
    | Except.ok stdoutBytes => Except.ok stdoutBytes

/-- Models the rawInput=false, rawOutput=false closure of
`functionContent.load`: JSON-serialized structured stdin in; the captured
stdout is YAML-decoded into `o`, whose decode error aborts the call, but the
closure then returns the original `stdin` value, exactly as the source does. -/
def callStructuredStructured (env : Env) (commandArray : List String) (args : List Value)
    (stdin : Value) : Except String Value :=
  match env.jsonEncode stdin with
  | Except.error e => Except.error e
  | Except.ok jsonBytes =>
    let stringArgs := castDroppingError args
    match env.runProc (commandArray ++ stringArgs) jsonBytes with
    | Except.error e => Except.error e
    | Except.ok stdoutBytes =>
      match env.yamlDecode stdoutBytes with
      | Except.error e => Except.error e
      | Except.ok _o => Except.ok stdin

mutual
/-- Models the external mergo library's `Merge(&dst, src, WithOverride)` on a
single value pair, as the specification describes the deep-merge collaborator:
two mappings merge recursively, otherwise the later (source) value wins. -/
def mergeVal : Value → Value → Value
  | Value.obj d, Value.obj s => Value.obj (mergeObjList d s)
  | _, s => s

/-- Key-by-key deep merge of a source object into a destination object. -/
def mergeObjList (d : List (String × Value)) : List (String × Value) → List (String × Value)
  | [] => d
  | (k, v) :: rest =>
    let merged :=
      match objLookup d k with
      | none => v
      | some dv => mergeVal dv v
    mergeObjList (objUpdate d k merged) rest
end

/-- Shallow merge of one evaluated mapping into the accumulated context:
models the Go loop `for k, v := range newContext { finalContext[k] = v }`. -/
def shallowMergeInto (acc : List (String × Value)) (m : List (String × Value)) :
    List (String × Value) :=
  match m with
  | [] => acc
  | (k, v) :: rest => shallowMergeInto (objUpdate acc k v) rest

/-- Models `loadContext` from `main.go`: evaluate each top-level entry in
argument order, require a mapping, and fold it into the final context
shallowly or via the deep merge depending on the flag. -/
def loadContext (env : Env) (deepMerge : Bool) : List Ctx → Except String (List (String × Value)) → Except String (List (String × Value))
  | [], acc => acc
  | c :: rest, acc =>
    match acc with
    | Except.error e => Except.error e
    | Except.ok finalContext =>
      match evalCtx env c with
      | Except.error e => Except.error e
      | Except.ok v =>
        match v with
        | Value.obj newContext =>
          if deepMerge then
            loadContext env deepMerge rest (Except.ok (mergeObjList finalContext newContext))
          else
            loadContext env deepMerge rest (Except.ok (shallowMergeInto finalContext newContext))
        | _ => Except.error ("context " ++ c.original ++ " had no top level keys")

/-- The whole context-building pipeline on an argument list. -/
def buildContext (env : Env) (deepMerge : Bool) (args : List String) :
    Except String (List (String × Value)) :=
  loadContext env deepMerge (parseContexts args) (Except.ok [])

/-- The data token of an argument: the entry spec after key and format
resolution, which `parseContent` classifies by prefix. -/
def dataTokenOf (s : String) : String :=
  (parseFormat (rawContentOf s)).2

/-- An argument that joins an open list as a plain child: it declares no key
and its data token does not open a new list. -/
def listChildArg (s : String) : Prop :=
  argKeyOf s = "" ∧ dataTokenOf s ≠ ".." ∧ dataTokenOf s ≠ "..."

instance (s : String) : Decidable (listChildArg s) := by
  unfold listChildArg; infer_instance

/-- The context entry a single argument yields when no list is open. -/
def topEntryOf (arg : String) : Ctx :=
  Ctx.mk arg (argKeyOf arg) (parseContent (rawContentOf arg) none)

/-- Left-biased choice on optional values. -/
def optOr (a b : Option Value) : Option Value :=
  match a with
  | some v => some v
  | none => b

/-- Stated from the specification of shallow merging: the value a key receives
is the one from the last mapping, in argument order, that contains it. -/
def lastContaining (ms : List (List (String × Value))) (k : String) : Option Value :=
  match ms with
  | [] => none
  | m :: rest => optOr (lastContaining rest k) (objLookup m k)

/-- Stated from the specification of deep merging: at each key, a missing
source entry keeps the destination value, two nested mappings merge
recursively, and any other source value overrides. -/
def deepLookupSpec : Option Value → Option Value → Option Value
  | dv, none => dv
  | some (Value.obj a), some (Value.obj b) => some (Value.obj (mergeObjList a b))
  | _, some v => some v

/-- Stated from the specification of the kv format: the first non-empty line
without a space, if any (decoding must fail naming it). -/
def kvBadLineIn : List String → Option String
  | [] => none
  | l :: rest =>
    if l = "" then kvBadLineIn rest
    else if (splitFirstChar ' ' l).isNone then some l else kvBadLineIn rest

/-- The first non-empty spaceless line of a kv payload. -/
def kvBadLine (s : String) : Option String :=
  kvBadLineIn (splitAllChar '\n' s)

/-- Stated from the specification of the kv format: the value bound to a key
is the string after the first space of the last non-empty line whose part
before the first space equals the key. -/
def kvLastIn (lines : List String) (k : String) : Option Value :=
  match lines with
  | [] => none
  | l :: rest =>
    optOr (kvLastIn rest k)
      (if l = "" then none
       else
         match splitFirstChar ' ' l with
         | some (a, b) => if a = k then some (Value.str b) else none
         | none => none)

/-- Specified lookup for a decoded kv payload. -/
def kvSpecLookup (s : String) (k : String) : Option Value :=
  kvLastIn (splitAllChar '\n' s) k

/-- Stated from the specification of List evaluation with metadata: a
file-sourced element is wrapped as content plus filename, basename and
extension-stripped name; every other element carries only its content. -/
def listElementSpec (c : Ctx) (v : Value) : Value :=
  match c.content with
  | ContentNode.file _ filename =>
    Value.obj [("content", v),
               ("filename", Value.str filename),
               ("basename", Value.str (pathBase filename)),
               ("name", Value.str (trimSuffixStr (pathBase filename) (fileExtOf (pathBase filename))))]
  | _ => Value.obj [("content", v)]

/-- Stated from the specification of List evaluation: children evaluate in
argument order; without metadata the plain values are collected, with
metadata each value is wrapped by `listElementSpec`. -/
def listLoadSpec (env : Env) (meta : Bool) : List Ctx → Except String (List Value)
  | [] => Except.ok []
  | c :: rest =>
    match evalCtx env c with
    | Except.error e => Except.error e
    | Except.ok v =>
      match listLoadSpec env meta rest with
      | Except.error e => Except.error e
      | Except.ok l => Except.ok ((if meta then listElementSpec c v else v) :: l)

/-- A concrete environment used to evaluate the embedded code on explicit
inputs: every boundary answers deterministically and visibly. -/
def procEnv : Env where
  fileSys := fun fn => Except.error ("open " ++ fn)
  stdinBytes := Except.ok "a: 1"
  yamlDecode := fun s => Except.ok (Value.str ("decoded:" ++ s))
  jsonDecode := fun s => Except.ok (Value.str s)
  jsonEncode := fun _ => Except.ok "null"
  runProc := fun _ _ => Except.ok "out"

/-- A concrete environment whose YAML codec returns the two nested mappings
of the specification's deep-merge example. -/
def mergeEnv : Env where
  fileSys := fun fn => Except.error ("open " ++ fn)
  stdinBytes := Except.error "closed"
  yamlDecode := fun s =>
    if s = "m1" then Except.ok (Value.obj [("a", Value.obj [("x", Value.num 1)])])
    else if s = "m2" then Except.ok (Value.obj [("a", Value.obj [("y", Value.num 2)])])
    else Except.ok (Value.str s)
  jsonDecode := fun s => Except.ok (Value.str s)
  jsonEncode := fun _ => Except.ok "null"
  runProc := fun _ _ => Except.error "no exec"

/-!
Theorems.  Each claim of the specification audit is settled by exactly one
theorem below; shared helper lemmas precede them.
-/

theorem strMk_toList (s : String) : String.mk s.toList = s := rfl

theorem toList_append (a b : String) : (a ++ b).toList = a.toList ++ b.toList :=
  String.data_append a b

theorem splitCharAux_not_mem {c : Char} {l : List Char} (h : c ∉ l) :
    splitCharAux c l = none := by
  induction l with
  | nil => rfl
  | cons x xs ih =>
    simp only [List.mem_cons, not_or] at h
    have hx : ¬ x = c := fun he => h.1 he.symm
    simp [splitCharAux, hx, ih h.2]

theorem splitCharAux_append {c : Char} {l₁ l₂ : List Char} (h : c ∉ l₁) :
    splitCharAux c (l₁ ++ c :: l₂) = some (l₁, l₂) := by
  induction l₁ with
  | nil => simp [splitCharAux]
  | cons x xs ih =>
    simp only [List.mem_cons, not_or] at h
    have hx : ¬ x = c := fun he => h.1 he.symm
    simp [splitCharAux, hx, ih h.2]

theorem splitFirstChar_eq_some {c : Char} {k t arg : String}
    (harg : arg.toList = k.toList ++ c :: t.toList) (hk : c ∉ k.toList) :
    splitFirstChar c arg = some (k, t) := by
  unfold splitFirstChar
  rw [harg, splitCharAux_append hk]
  simp [strMk_toList]

theorem splitFirstChar_eq_none {c : Char} {arg : String} (h : c ∉ arg.toList) :
    splitFirstChar c arg = none := by
  unfold splitFirstChar
  rw [splitCharAux_not_mem h]

theorem headIs_of_cons {c x : Char} {arg : String} {l : List Char} (h : arg.toList = x :: l) :
    headIs c arg = (x == c) := by
  unfold headIs
  rw [h]

theorem strDrop_one {arg : String} {x : Char} {l : List Char} (h : arg.toList = x :: l) :
    strDrop 1 arg = String.mk l := by
  unfold strDrop
  rw [h]
  rfl

theorem keyed_arg_parts {arg k t : String} (harg : arg.toList = k.toList ++ ':' :: t.toList)
    (hk : ':' ∉ k.toList) (hp : headIs '+' k = false) :
    argKeyOf arg = k ∧ rawContentOf arg = ":" ++ t := by
  have hplus : headIs '+' arg = false := by
    cases hkl : k.toList with
    | nil =>
      rw [headIs_of_cons (x := ':') (l := t.toList) (by rw [harg, hkl]; rfl)]
      rfl
    | cons x xs =>
      rw [headIs_of_cons (x := x) (l := xs ++ ':' :: t.toList) (by rw [harg, hkl]; rfl)]
      rw [headIs_of_cons hkl] at hp
      exact hp
  refine ⟨?_, ?_⟩
  · simp [argKeyOf, hplus, splitFirstChar_eq_some harg hk]
  · simp [rawContentOf, hplus, splitFirstChar_eq_some harg hk]

theorem unkeyed_arg_parts {arg : String} {x : Char} {l : List Char}
    (harg : arg.toList = x :: l) (hx : x ≠ '+') (hcolon : ':' ∉ arg.toList) :
    argKeyOf arg = "" ∧ rawContentOf arg = arg := by
  have hplus : headIs '+' arg = false := by
    rw [headIs_of_cons harg]
    simp [hx]
  refine ⟨?_, ?_⟩
  · simp [argKeyOf, hplus, splitFirstChar_eq_none hcolon]
  · simp [rawContentOf, hplus, splitFirstChar_eq_none hcolon]

theorem objLookup_eq_none {m : List (String × Value)} {k : String}
    (h : k ∉ m.map Prod.fst) : objLookup m k = none := by
  induction m with
  | nil => rfl
  | cons p rest ih =>
    obtain ⟨k', v'⟩ := p
    simp only [List.map_cons, List.mem_cons, not_or] at h
    have hne : ¬ k' = k := fun he => h.1 he.symm
    simp [objLookup, hne, ih h.2]

theorem objLookup_objUpdate_self (m : List (String × Value)) (k : String) (v : Value) :
    objLookup (objUpdate m k v) k = some v := by
  induction m with
  | nil => simp [objUpdate, objLookup]
  | cons p rest ih =>
    obtain ⟨k', v'⟩ := p
    by_cases h : k' = k <;> simp [objUpdate, objLookup, h, ih]

theorem objLookup_objUpdate_ne (m : List (String × Value)) (k u : String) (v : Value)
    (h : u ≠ k) : objLookup (objUpdate m u v) k = objLookup m k := by
  induction m with
  | nil => simp [objUpdate, objLookup, h]
  | cons p rest ih =>
    obtain ⟨k', v'⟩ := p
    by_cases hk' : k' = u
    · subst hk'
      simp [objUpdate, objLookup, h]
    · simp [objUpdate, objLookup, hk', ih]

theorem optOr_none_right (a : Option Value) : optOr a none = a := by
  cases a <;> rfl

theorem optOr_assoc (a b c : Option Value) : optOr (optOr a b) c = optOr a (optOr b c) := by
  cases a <;> rfl

theorem shallow_lookup_none {m : List (String × Value)} {k : String}
    (h : objLookup m k = none) (acc : List (String × Value)) :
    objLookup (shallowMergeInto acc m) k = objLookup acc k := by
  induction m generalizing acc with
  | nil => rfl
  | cons p rest ih =>
    obtain ⟨k₁, v₁⟩ := p
    simp only [objLookup] at h
    by_cases hk₁ : k₁ = k
    · rw [if_pos hk₁] at h
      cases h
    · rw [if_neg hk₁] at h
      simp only [shallowMergeInto]
      rw [ih h, objLookup_objUpdate_ne _ _ _ _ hk₁]

theorem shallow_lookup {m : List (String × Value)} (hm : (m.map Prod.fst).Nodup)
    (acc : List (String × Value)) (k : String) :
    objLookup (shallowMergeInto acc m) k = optOr (objLookup m k) (objLookup acc k) := by
  induction m generalizing acc with
  | nil => rfl
  | cons p rest ih =>
    obtain ⟨k₁, v₁⟩ := p
    simp only [List.map_cons, List.nodup_cons] at hm
    obtain ⟨hk₁, hrest⟩ := hm
    simp only [shallowMergeInto]
    rw [ih hrest]
    by_cases hkk : k₁ = k
    · subst hkk
      rw [objLookup_eq_none hk₁]
      simp [objLookup, objLookup_objUpdate_self, optOr]
    · rw [objLookup_objUpdate_ne _ _ _ _ hkk]
      simp [objLookup, hkk]

theorem loadListAux_length {env : Env} {meta : Bool} {ctxs : List Ctx} {l : List Value}
    (h : loadListAux env meta ctxs = Except.ok l) : l.length = ctxs.length := by
  induction ctxs generalizing l with
  | nil =>
    simp only [loadListAux] at h
    cases h
    rfl
  | cons c rest ih =>
    simp only [loadListAux] at h
    cases he : evalCtx env c with
    | error e => rw [he] at h; cases h
    | ok v =>
      rw [he] at h
      cases hr : loadListAux env meta rest with
      | error e => rw [hr] at h; cases h
      | ok l' =>
        rw [hr] at h
        cases h
        simp [ih hr]

theorem classifyData_children {f d : String} {l m fm}
    (h : classifyData f d = ContentNode.listC l m fm) : l = [] := by
  unfold classifyData at h
  repeat' split at h
  all_goals first
    | (injection h with h1 h2 h3; exact h1.symm)
    | exact ContentNode.noConfusion h

theorem parseContent_children {r : String} {lc : Option String} {l m fm}
    (h : parseContent r lc = ContentNode.listC l m fm) : l = [] := by
  simp only [parseContent] at h
  exact classifyData_children h

theorem classifyData_not_listC {f d : String} (h1 : d ≠ "..") (h2 : d ≠ "...") {l m fm} :
    classifyData f d ≠ ContentNode.listC l m fm := by
  unfold classifyData
  rw [if_neg h1, if_neg h2]
  repeat' split
  all_goals exact fun h => ContentNode.noConfusion h

theorem parseStep_none_flush (fin : List Ctx) (arg : String) :
    flushOpen (parseStep (fin, none) arg) = fin ++ [topEntryOf arg] := by
  have hst : (if argKeyOf arg = "" then ((fin, none) : List Ctx × Option OpenList)
      else (flushOpen (fin, none), none)) = (fin, none) := by
    split <;> rfl
  simp only [parseStep, topEntryOf]
  rw [hst]
  cases hc : parseContent (rawContentOf arg) none with
  | listC l m fm =>
    have hl : l = [] := parseContent_children hc
    subst hl
    simp [flushOpen]
  | file f fn => simp [flushOpen]
  | stdinC f => simp [flushOpen]
  | textC f t => simp [flushOpen]
  | functionC a b s => simp [flushOpen]

theorem parseStep_keyed_flush (fin : List Ctx) (ol : OpenList) (arg : String)
    (h : argKeyOf arg ≠ "") :
    flushOpen (parseStep (fin, some ol) arg) =
      (fin ++ [Ctx.mk ol.original ol.key
        (ContentNode.listC ol.children ol.showMetadata ol.childFormat)]) ++ [topEntryOf arg] := by
  have hst : (if argKeyOf arg = "" then ((fin, some ol) : List Ctx × Option OpenList)
      else (flushOpen (fin, some ol), none)) = (flushOpen (fin, some ol), none) := by
    rw [if_neg h]
  simp only [parseStep, topEntryOf]
  rw [hst]
  cases hc : parseContent (rawContentOf arg) none with
  | listC l m fm =>
    have hl : l = [] := parseContent_children hc
    subst hl
    simp [flushOpen]
  | file f fn => simp [flushOpen]
  | stdinC f => simp [flushOpen]
  | textC f t => simp [flushOpen]
  | functionC a b s => simp [flushOpen]

theorem parseStep_child (fin : List Ctx) (ol : OpenList) (s : String) (h : listChildArg s) :
    parseStep (fin, some ol) s =
      (fin, some { ol with
        children := ol.children ++ [Ctx.mk s "" (parseContent (rawContentOf s) (some ol.childFormat))] }) := by
  obtain ⟨hkey, h1, h2⟩ := h
  have hst : (if argKeyOf s = "" then ((fin, some ol) : List Ctx × Option OpenList)
      else (flushOpen (fin, some ol), none)) = (fin, some ol) := by
    rw [if_pos hkey]
  simp only [parseStep]
  rw [hst]
  cases hc : parseContent (rawContentOf s) (some ol.childFormat) with
  | listC l m fm =>
    exfalso
    have : classifyData (resolveFormat (parseFormat (rawContentOf s)).1 (some ol.childFormat))
        (parseFormat (rawContentOf s)).2 = ContentNode.listC l m fm := by
      simpa [parseContent] using hc
    exact classifyData_not_listC h1 h2 this
  | file f fn => simp [hkey]
  | stdinC f => simp [hkey]
  | textC f t => simp [hkey]
  | functionC a b s' => simp [hkey]

theorem parseFold_children (mid : List String) (fin : List Ctx) (ol : OpenList)
    (h : ∀ s ∈ mid, listChildArg s) :
    mid.foldl parseStep (fin, some ol) =
      (fin, some { ol with
        children := ol.children ++
          mid.map (fun s => Ctx.mk s "" (parseContent (rawContentOf s) (some ol.childFormat))) }) := by
  induction mid generalizing ol with
  | nil => simp
  | cons s rest ih =>
    rw [List.foldl_cons, parseStep_child fin ol s (h s (List.mem_cons_self s rest))]
    rw [ih _ (fun x hx => h x (List.mem_cons_of_mem s hx))]
    simp

theorem loadContext_shallow_run {env : Env} {ctxs : List Ctx} {ms : List (List (String × Value))}
    (h : List.Forall₂ (fun c m => evalCtx env c = Except.ok (Value.obj m)) ctxs ms) :
    ∀ acc, loadContext env false ctxs (Except.ok acc) =
      Except.ok (ms.foldl shallowMergeInto acc) := by
  induction h with
  | nil => intro acc; rfl
  | @cons c m ctxs' ms' hcm hrest ih =>
    intro acc
    simp only [loadContext]
    rw [hcm]
    simpa using ih (shallowMergeInto acc m)

theorem foldl_shallow_lookup (ms : List (List (String × Value)))
    (hnd : ∀ m ∈ ms, (m.map Prod.fst).Nodup) (acc : List (String × Value)) (k : String) :
    objLookup (ms.foldl shallowMergeInto acc) k = optOr (lastContaining ms k) (objLookup acc k) := by
  induction ms generalizing acc with
  | nil => rfl
  | cons m rest ih =>
    rw [List.foldl_cons, ih (fun x hx => hnd x (List.mem_cons_of_mem m hx)),
        shallow_lookup (hnd m (List.mem_cons_self m rest)) acc k]
    rw [show lastContaining (m :: rest) k = optOr (lastContaining rest k) (objLookup m k) from rfl,
        optOr_assoc]

theorem mergeObjList_lookup_none {s : List (String × Value)} {k : String}
    (h : objLookup s k = none) : ∀ d, objLookup (mergeObjList d s) k = objLookup d k := by
  induction s with
  | nil => intro d; rfl
  | cons p rest ih =>
    obtain ⟨k₁, v₁⟩ := p
    intro d
    simp only [objLookup] at h
    by_cases hkk : k₁ = k
    · rw [if_pos hkk] at h
      cases h
    · rw [if_neg hkk] at h
      simp only [mergeObjList]
      rw [ih h, objLookup_objUpdate_ne _ _ _ _ hkk]

theorem mergeObjList_lookup {s : List (String × Value)} (hs : (s.map Prod.fst).Nodup)
    (d : List (String × Value)) (k : String) :
    objLookup (mergeObjList d s) k = deepLookupSpec (objLookup d k) (objLookup s k) := by
  induction s generalizing d with
  | nil =>
    cases hd : objLookup d k <;> simp [mergeObjList, deepLookupSpec, objLookup, hd]
  | cons p rest ih =>
    obtain ⟨k₁, v₁⟩ := p
    simp only [List.map_cons, List.nodup_cons] at hs
    obtain ⟨hk₁, hrest⟩ := hs
    by_cases hkk : k₁ = k
    · subst hkk
      have hrk : objLookup rest k₁ = none := objLookup_eq_none hk₁
      simp only [mergeObjList]
      rw [mergeObjList_lookup_none hrk, objLookup_objUpdate_self]
      simp only [objLookup, if_pos rfl]
      cases hd : objLookup d k₁ with
      | none => cases v₁ <;> simp [deepLookupSpec]
      | some dv => cases dv <;> cases v₁ <;> simp [deepLookupSpec, mergeVal]
    · simp only [mergeObjList]
      rw [ih hrest, objLookup_objUpdate_ne _ _ _ _ hkk]
      simp [objLookup, hkk]

theorem kvLinesAux_error {lines : List String} {bad : String}
    (h : kvBadLineIn lines = some bad) :
    ∀ acc, kvLinesAux lines acc =
      Except.error ("line not in kv format: \"" ++ bad ++ "\"") := by
  induction lines with
  | nil => intro acc; cases h
  | cons l rest ih =>
    intro acc
    by_cases hl : l = ""
    · rw [show kvBadLineIn (l :: rest) = kvBadLineIn rest from by simp [kvBadLineIn, hl]] at h
      simp [kvLinesAux, hl, ih h]
    · cases hsp : splitFirstChar ' ' l with
      | none =>
        have hbad : l = bad := by
          simpa [kvBadLineIn, hl, hsp] using h
        subst hbad
        simp [kvLinesAux, hl, hsp]
      | some p =>
        have h' : kvBadLineIn rest = some bad := by
          simpa [kvBadLineIn, hl, hsp] using h
        obtain ⟨a, b⟩ := p
        simp [kvLinesAux, hl, hsp, ih h']

theorem kvLinesAux_ok {lines : List String} (h : kvBadLineIn lines = none) :
    ∀ acc, ∃ m, kvLinesAux lines acc = Except.ok m ∧
      ∀ k, objLookup m k = optOr (kvLastIn lines k) (objLookup acc k) := by
  induction lines with
  | nil => intro acc; exact ⟨acc, rfl, fun k => rfl⟩
  | cons l rest ih =>
    intro acc
    by_cases hl : l = ""
    · have h' : kvBadLineIn rest = none := by simpa [kvBadLineIn, hl] using h
      obtain ⟨m, hm, hlook⟩ := ih h' acc
      refine ⟨m, by simpa [kvLinesAux, hl] using hm, fun k => ?_⟩
      rw [hlook k]
      rw [show kvLastIn (l :: rest) k = optOr (kvLastIn rest k) none from by simp [kvLastIn, hl]]
      rw [optOr_none_right]
    · cases hsp : splitFirstChar ' ' l with
      | none =>
        exfalso
        simp [kvBadLineIn, hl, hsp] at h
      | some p =>
        obtain ⟨a, b⟩ := p
        have h' : kvBadLineIn rest = none := by simpa [kvBadLineIn, hl, hsp] using h
        obtain ⟨m, hm, hlook⟩ := ih h' (objUpdate acc a (Value.str b))
        refine ⟨m, by simpa [kvLinesAux, hl, hsp] using hm, fun k => ?_⟩
        rw [hlook k]
        have hstep : kvLastIn (l :: rest) k =
            optOr (kvLastIn rest k) (if a = k then some (Value.str b) else none) := by
          simp [kvLastIn, hl, hsp]
        rw [hstep]
        cases hr : kvLastIn rest k with
        | some w => simp [optOr]
        | none =>
          simp only [optOr]
          by_cases hak : a = k
          · subst hak
            rw [objLookup_objUpdate_self]
            simp
          · rw [objLookup_objUpdate_ne _ _ _ _ hak]
            simp [hak]

/-- C1: with rawInput=false and rawOutput=false, a successful call does not
return the captured standard output decoded as structured data: the closure
decodes the stdout (here "out", decoding to the string "decoded:out") and
then returns the original stdin value unchanged. -/
theorem rjsone_c1_function_structured_output_returns_stdin :
    callStructuredStructured procEnv ["cat"] [] (Value.num 7) = Except.ok (Value.num 7) ∧
    procEnv.runProc ["cat"] "null" = Except.ok "out" ∧
    procEnv.yamlDecode "out" = Except.ok (Value.str "decoded:out") ∧
    Value.num 7 ≠ Value.str "decoded:out" :=
  ⟨rfl, rfl, rfl, fun h => Value.noConfusion h⟩

/-- C2: a call whose argument sequence contains a non-string element does not
fail: `castToStrings` does report the error, but every one of the four
closures discards it and runs the process with the offending arguments
dropped, returning the process result. -/
theorem rjsone_c2_nonstring_args_silently_dropped :
    castToStrings [Value.num 1] =
      Except.error "function command line arguments must be strings (use stdin or $json)" ∧
    callRawRaw procEnv ["c"] [Value.num 1] "s" = Except.ok "out" ∧
    callRawStructured procEnv ["c"] [Value.num 1] "s" = Except.ok (Value.str "decoded:out") ∧
    callStructuredRaw procEnv ["c"] [Value.num 1] Value.null = Except.ok "out" ∧
    callStructuredStructured procEnv ["c"] [Value.num 1] Value.null = Except.ok Value.null :=
  ⟨rfl, rfl, rfl, rfl, rfl⟩

/-- C3: the argument `-` parses to a Stdin node whose format field is left at
the zero value "" instead of the resolved default structured format, so
evaluation fails with a format error even though standard input is readable
and the resolved format "yaml" would have decoded it. -/
theorem rjsone_c3_stdin_node_loses_format :
    parseContexts ["-"] = [Ctx.mk "-" "" (ContentNode.stdinC "")] ∧
    evalCtx procEnv (Ctx.mk "-" "" (ContentNode.stdinC "")) =
      Except.error "format \"\" not supported" ∧
    procEnv.stdinBytes = Except.ok "a: 1" ∧
    loadBytes procEnv "yaml" "a: 1" = Except.ok (Value.str "decoded:a: 1") :=
  ⟨rfl, rfl, rfl, rfl⟩

/-- C4 counterexample: after `k:..`, the single unkeyed argument `..` is not
placed as a child of the open list; it replaces it with a fresh top-level
list, so the list under `k` ends with zero children instead of one. -/
theorem rjsone_c4_counterexample_unkeyed_opener :
    parseContexts ["k:..", "..", "x:y"] =
      [Ctx.mk "k:.." "k" (ContentNode.listC [] false "yaml"),
       Ctx.mk ".." "" (ContentNode.listC [] false "yaml"),
       Ctx.mk "x:y" "x" (ContentNode.file "yaml" "y")] :=
  rfl

/-- C6 counterexample: an argument whose text before the first colon is empty
is not rejected; `:a` parses, without any error, to an unkeyed File node. -/
theorem rjsone_c6_counterexample_empty_key_accepted :
    parseContexts [":a"] = [Ctx.mk ":a" "" (ContentNode.file "yaml" "a")] :=
  rfl

/-- C10 counterexample: an unkeyed argument parsed as a Function node while a
list is open is added as a child of that list: after `k:..`, the argument
`-foo` ends up inside the list's children. -/
theorem rjsone_c10_counterexample_function_list_child :
    parseContexts ["k:..", "-foo"] =
      [Ctx.mk "k:.." "k"
        (ContentNode.listC [Ctx.mk "-foo" "" (ContentNode.functionC false false "foo")]
          false "yaml")] :=
  rfl

theorem parseFormat_colon (rest : String) :
    parseFormat (":" ++ rest) =
      (if headIs '+' rest then (some "yaml", rest)
       else
         match splitFirstChar ':' rest with
         | none => (none, rest)
         | some (f, d) => (some f, d)) := by
  have htl : (":" ++ rest).toList = ':' :: rest.toList := by
    rw [toList_append]
    rfl
  have h1 : headIs ':' (":" ++ rest) = true := by
    rw [headIs_of_cons htl]
    rfl
  have h2 : strDrop 1 (":" ++ rest) = rest := by
    rw [strDrop_one htl]
    exact strMk_toList rest
  simp [parseFormat, h1, h2]

theorem parseStep_open {st : List Ctx × Option OpenList} {arg : String} {m : Bool} {fm : String}
    (hkey : argKeyOf arg ≠ "")
    (hraw : parseContent (rawContentOf arg) none = ContentNode.listC [] m fm) :
    parseStep st arg = (flushOpen st, some ⟨arg, argKeyOf arg, m, fm, []⟩) := by
  simp only [parseStep]
  rw [if_neg hkey]
  simp [hraw, flushOpen]

/-- C6 (amended): an argument with an empty key part is accepted rather than
rejected: `:`-prefixed arguments parse, with no error path at all, to a
single entry whose key is empty and whose content is the parse of the whole
remainder.  The parser's type has no error channel, so no parse error can be
surfaced before evaluation. -/
theorem rjsone_c6_amended_empty_key_unkeyed (s : String) :
    parseContexts [":" ++ s] = [Ctx.mk (":" ++ s) "" (parseContent (":" ++ s) none)] := by
  have htl : (":" ++ s).toList = "".toList ++ ':' :: s.toList := by
    rw [toList_append]
    rfl
  obtain ⟨hkey, hraw⟩ := keyed_arg_parts htl (by simp) (by rfl)
  rw [show parseContexts [":" ++ s] = flushOpen (parseStep ([], none) (":" ++ s)) from rfl]
  rw [parseStep_none_flush]
  rw [show topEntryOf (":" ++ s) =
    Ctx.mk (":" ++ s) (argKeyOf (":" ++ s)) (parseContent (rawContentOf (":" ++ s)) none) from rfl]
  rw [hkey, hraw]
  rfl

/-- C7: for any key (a key contains no colon and does not begin with a plus)
and any payload, `key::payload` and `key:text:payload` parse to entries with
the same key and the identical content node, and evaluation of the two
entries agrees in every environment. -/
theorem rjsone_c7_text_format_equivalence (k p : String) (hk : ':' ∉ k.toList)
    (hp : headIs '+' k = false) :
    parseContexts [k ++ "::" ++ p] =
      [Ctx.mk (k ++ "::" ++ p) k (classifyData "text" p)] ∧
    parseContexts [k ++ ":text:" ++ p] =
      [Ctx.mk (k ++ ":text:" ++ p) k (classifyData "text" p)] ∧
    ∀ env, evalCtx env (Ctx.mk (k ++ "::" ++ p) k (classifyData "text" p)) =
      evalCtx env (Ctx.mk (k ++ ":text:" ++ p) k (classifyData "text" p)) := by
  have hpf1 : parseFormat (":" ++ (":" ++ p)) = (some "", p) := by
    rw [parseFormat_colon]
    have hplus : headIs '+' (":" ++ p) = false := by
      rw [headIs_of_cons (show (":" ++ p).toList = ':' :: p.toList from by rw [toList_append]; rfl)]
      rfl
    have hsp : splitFirstChar ':' (":" ++ p) = some ("", p) :=
      splitFirstChar_eq_some
        (show (":" ++ p).toList = "".toList ++ ':' :: p.toList from by rw [toList_append]; rfl)
        (by simp)
    simp [hplus, hsp]
  have hpf2 : parseFormat (":" ++ ("text:" ++ p)) = (some "text", p) := by
    rw [parseFormat_colon]
    have hplus : headIs '+' ("text:" ++ p) = false := by
      rw [headIs_of_cons (show ("text:" ++ p).toList = 't' :: ('e' :: 'x' :: 't' :: ':' :: p.toList)
        from by rw [toList_append]; rfl)]
      rfl
    have hsp : splitFirstChar ':' ("text:" ++ p) = some ("text", p) :=
      splitFirstChar_eq_some
        (show ("text:" ++ p).toList = "text".toList ++ ':' :: p.toList from by
          rw [toList_append]; rfl)
        (by decide)
    simp [hplus, hsp]
  have hc1 : parseContent (":" ++ (":" ++ p)) none = classifyData "text" p := by
    simp [parseContent, hpf1, resolveFormat]
  have hc2 : parseContent (":" ++ ("text:" ++ p)) none = classifyData "text" p := by
    simp [parseContent, hpf2, resolveFormat]
  have htl1 : (k ++ "::" ++ p).toList = k.toList ++ ':' :: (":" ++ p).toList := by
    simp [toList_append]
  have htl2 : (k ++ ":text:" ++ p).toList = k.toList ++ ':' :: ("text:" ++ p).toList := by
    simp [toList_append]
  obtain ⟨hkey1, hraw1⟩ := keyed_arg_parts htl1 hk hp
  obtain ⟨hkey2, hraw2⟩ := keyed_arg_parts htl2 hk hp
  refine ⟨?_, ?_, fun env => rfl⟩
  · rw [show parseContexts [k ++ "::" ++ p] = flushOpen (parseStep ([], none) (k ++ "::" ++ p))
      from rfl]
    rw [parseStep_none_flush]
    rw [show topEntryOf (k ++ "::" ++ p) = Ctx.mk (k ++ "::" ++ p) (argKeyOf (k ++ "::" ++ p))
      (parseContent (rawContentOf (k ++ "::" ++ p)) none) from rfl]
    rw [hkey1, hraw1, hc1]
    rfl
  · rw [show parseContexts [k ++ ":text:" ++ p] =
      flushOpen (parseStep ([], none) (k ++ ":text:" ++ p)) from rfl]
    rw [parseStep_none_flush]
    rw [show topEntryOf (k ++ ":text:" ++ p) = Ctx.mk (k ++ ":text:" ++ p)
      (argKeyOf (k ++ ":text:" ++ p))
      (parseContent (rawContentOf (k ++ ":text:" ++ p)) none) from rfl]
    rw [hkey2, hraw2, hc2]
    rfl

/-- Witness for C7 at the concrete key `mykey` and payload `+foo`. -/
theorem rjsone_c7_text_format_equivalence_witness :
    parseContexts ["mykey" ++ "::" ++ "+foo"] =
      [Ctx.mk ("mykey" ++ "::" ++ "+foo") "mykey" (classifyData "text" "+foo")] ∧
    parseContexts ["mykey" ++ ":text:" ++ "+foo"] =
      [Ctx.mk ("mykey" ++ ":text:" ++ "+foo") "mykey" (classifyData "text" "+foo")] ∧
    ∀ env, evalCtx env (Ctx.mk ("mykey" ++ "::" ++ "+foo") "mykey" (classifyData "text" "+foo")) =
      evalCtx env (Ctx.mk ("mykey" ++ ":text:" ++ "+foo") "mykey" (classifyData "text" "+foo")) :=
  rjsone_c7_text_format_equivalence "mykey" "+foo" (by decide) (by rfl)

/-- C9: kv decoding splits the payload on newlines, skips empty lines, and
splits each remaining line on its first space into a key and a string value;
a non-empty line without a space makes decoding fail with an error naming
the first such line, and on success the mapping binds each key to the value
of the last line carrying it. -/
theorem rjsone_c9_kv_decode (env : Env) (s : String) :
    (∀ bad, kvBadLine s = some bad →
      loadBytes env "kv" s = Except.error ("line not in kv format: \"" ++ bad ++ "\"")) ∧
    (kvBadLine s = none →
      ∃ m, loadBytes env "kv" s = Except.ok (Value.obj m) ∧
        ∀ k, objLookup m k = kvSpecLookup s k) := by
  have hload : loadBytes env "kv" s =
      match kvLinesAux (splitAllChar '\n' s) [] with
      | Except.error e => Except.error e
      | Except.ok m => Except.ok (Value.obj m) := by
    unfold loadBytes
    rw [if_neg (by decide), if_neg (by decide), if_neg (by decide), if_pos rfl]
  constructor
  · intro bad hbad
    rw [hload, kvLinesAux_error hbad []]
  · intro hnone
    obtain ⟨m, hm, hlook⟩ := kvLinesAux_ok hnone []
    refine ⟨m, by rw [hload, hm], fun k => ?_⟩
    rw [hlook k, kvSpecLookup]
    exact optOr_none_right _

/-- Witness for C9: a payload with a spaceless line fails naming it, and a
well-formed payload decodes with the specified per-key lookup. -/
theorem rjsone_c9_kv_decode_witness :
    loadBytes procEnv "kv" "a 1\nbad" = Except.error ("line not in kv format: \"bad\"") ∧
    ∃ m, loadBytes procEnv "kv" "a 1\n\nb 2" = Except.ok (Value.obj m) ∧
      ∀ k, objLookup m k = kvSpecLookup "a 1\n\nb 2" k :=
  ⟨(rjsone_c9_kv_decode procEnv "a 1\nbad").1 "bad" (by rfl),
   (rjsone_c9_kv_decode procEnv "a 1\n\nb 2").2 (by rfl)⟩

theorem loadListAux_eq_spec (env : Env) (meta : Bool) (ctxs : List Ctx) :
    loadListAux env meta ctxs = listLoadSpec env meta ctxs := by
  induction ctxs with
  | nil => rfl
  | cons c rest ih =>
    simp only [loadListAux, listLoadSpec, ih]
    cases hv : evalCtx env c with
    | error e => rfl
    | ok v =>
      cases hl : listLoadSpec env meta rest with
      | error e => rfl
      | ok l =>
        cases meta with
        | false => rfl
        | true =>
          cases c with
          | mk o key cn => cases cn <;> rfl

/-- C8: a List node with metadata evaluates, in child argument order, each
File child to the mapping with exactly the keys content, filename, basename
(the path's last component) and name (basename without its extension), and
every other child to the mapping with the single key content; without
metadata the result is the plain sequence of child values. -/
theorem rjsone_c8_list_metadata_shape (env : Env) (meta : Bool) (ctxs : List Ctx) :
    loadListAux env meta ctxs = listLoadSpec env meta ctxs ∧
    ∀ fmt, loadContent env (ContentNode.listC ctxs meta fmt) =
      match listLoadSpec env meta ctxs with
      | Except.error e => Except.error e
      | Except.ok l => Except.ok (Value.arr l) := by
  refine ⟨loadListAux_eq_spec env meta ctxs, fun fmt => ?_⟩
  simp only [loadContent, loadListAux_eq_spec env meta ctxs]

/-- C5: in shallow mode the final context assigns each key the value from the
last mapping in argument order containing it; in deep mode nested mappings
merge key-by-key recursively with the later source overriding on conflicting
non-mapping leaves; on the specification's example, deep merging {a:{x:1}}
then {a:{y:2}} yields {a:{x:1,y:2}} while shallow merging yields {a:{y:2}}. -/
theorem rjsone_c5_merge_modes :
    (∀ (env : Env) (ctxs : List Ctx) (ms : List (List (String × Value))),
      List.Forall₂ (fun c m => evalCtx env c = Except.ok (Value.obj m)) ctxs ms →
      (∀ m ∈ ms, (m.map Prod.fst).Nodup) →
      ∃ M, loadContext env false ctxs (Except.ok []) = Except.ok M ∧
        ∀ k, objLookup M k = lastContaining ms k) ∧
    (∀ (d s : List (String × Value)), (s.map Prod.fst).Nodup →
      ∀ k, objLookup (mergeObjList d s) k = deepLookupSpec (objLookup d k) (objLookup s k)) ∧
    loadContext mergeEnv true
      [Ctx.mk "+m1" "" (ContentNode.textC "yaml" "m1"),
       Ctx.mk "+m2" "" (ContentNode.textC "yaml" "m2")] (Except.ok []) =
      Except.ok [("a", Value.obj [("x", Value.num 1), ("y", Value.num 2)])] ∧
    loadContext mergeEnv false
      [Ctx.mk "+m1" "" (ContentNode.textC "yaml" "m1"),
       Ctx.mk "+m2" "" (ContentNode.textC "yaml" "m2")] (Except.ok []) =
      Except.ok [("a", Value.obj [("y", Value.num 2)])] := by
  refine ⟨?_, ?_, by rfl, by rfl⟩
  · intro env ctxs ms h hnd
    refine ⟨ms.foldl shallowMergeInto [], loadContext_shallow_run h [], fun k => ?_⟩
    rw [foldl_shallow_lookup ms hnd [] k]
    exact optOr_none_right _
  · intro d s hs k
    exact mergeObjList_lookup hs d k

/-- Witness for C5: the shallow part applied to one concrete evaluated
mapping, and the deep lookup characterization applied to one concrete
override. -/
theorem rjsone_c5_merge_modes_witness :
    (∃ M, loadContext mergeEnv false [Ctx.mk "+m1" "" (ContentNode.textC "yaml" "m1")]
        (Except.ok []) = Except.ok M ∧
      ∀ k, objLookup M k = lastContaining [[("a", Value.obj [("x", Value.num 1)])]] k) ∧
    ∀ k, objLookup (mergeObjList [("a", Value.num 1)] [("a", Value.num 2)]) k =
      deepLookupSpec (objLookup [("a", Value.num 1)] k) (objLookup [("a", Value.num 2)] k) :=
  ⟨rjsone_c5_merge_modes.1 mergeEnv _ _
      (List.Forall₂.cons (by rfl) List.Forall₂.nil)
      (by
        intro m hm
        rw [List.mem_singleton] at hm
        subst hm
        decide),
   rjsone_c5_merge_modes.2.1 [("a", Value.num 1)] [("a", Value.num 2)] (by decide)⟩

/-- C4 (amended): after `key:..`, N subsequent arguments that declare no key
and are not themselves list-opening entries become exactly the children of
the List node, and the next keyed argument becomes a separate top-level
entry; when the children evaluate successfully and the keyed entry evaluates
to a mapping not containing `key`, the final context maps `key` to a
sequence of exactly N elements.  (The original claim fails when one of the N
unkeyed arguments is itself `..` or `...`: such an argument replaces the
open list instead of joining it.) -/
theorem rjsone_c4_amended_list_children (env : Env) (k last : String) (mid : List String)
    (vs : List Value) (m₂ : List (String × Value))
    (hk0 : k ≠ "") (hk : ':' ∉ k.toList) (hkp : headIs '+' k = false)
    (hmid : ∀ s ∈ mid, listChildArg s)
    (hlast : argKeyOf last ≠ "")
    (hload : loadListAux env false
      (mid.map (fun s => Ctx.mk s "" (parseContent (rawContentOf s) (some "yaml")))) =
      Except.ok vs)
    (heval : evalCtx env (topEntryOf last) = Except.ok (Value.obj m₂))
    (hm₂ : objLookup m₂ k = none) :
    parseContexts ((k ++ ":..") :: (mid ++ [last])) =
      [Ctx.mk (k ++ ":..") k (ContentNode.listC
          (mid.map (fun s => Ctx.mk s "" (parseContent (rawContentOf s) (some "yaml"))))
          false "yaml"),
       topEntryOf last] ∧
    ∃ M, loadContext env false (parseContexts ((k ++ ":..") :: (mid ++ [last]))) (Except.ok []) =
        Except.ok M ∧
      objLookup M k = some (Value.arr vs) ∧ vs.length = mid.length := by
  have htl0 : (k ++ ":..").toList = k.toList ++ ':' :: "..".toList := by
    rw [toList_append]
    rfl
  obtain ⟨hkey0, hraw0⟩ := keyed_arg_parts htl0 hk hkp
  have hkey0' : argKeyOf (k ++ ":..") ≠ "" := by rw [hkey0]; exact hk0
  have hraw0' : parseContent (rawContentOf (k ++ ":..")) none =
      ContentNode.listC [] false "yaml" := by
    rw [hraw0]
    rfl
  set children := mid.map (fun s => Ctx.mk s "" (parseContent (rawContentOf s) (some "yaml")))
    with hch
  have hparse : parseContexts ((k ++ ":..") :: (mid ++ [last])) =
      [Ctx.mk (k ++ ":..") k (ContentNode.listC children false "yaml"), topEntryOf last] := by
    unfold parseContexts
    rw [List.foldl_cons, parseStep_open hkey0' hraw0']
    rw [show (flushOpen ([], none) : List Ctx) = [] from rfl]
    rw [List.foldl_append]
    rw [parseFold_children mid [] ⟨k ++ ":..", argKeyOf (k ++ ":.."), false, "yaml", []⟩ hmid]
    rw [List.foldl_cons, List.foldl_nil]
    rw [parseStep_keyed_flush _ _ _ hlast]
    simp [hkey0, hch]
  refine ⟨hparse, ?_⟩
  have heval1 : evalCtx env (Ctx.mk (k ++ ":..") k (ContentNode.listC children false "yaml")) =
      Except.ok (Value.obj [(k, Value.arr vs)]) := by
    simp only [evalCtx, loadContent]
    rw [hload]
    simp [hk0]
  rw [hparse]
  have hrun : loadContext env false
      [Ctx.mk (k ++ ":..") k (ContentNode.listC children false "yaml"), topEntryOf last]
      (Except.ok []) =
      Except.ok (shallowMergeInto (shallowMergeInto [] [(k, Value.arr vs)]) m₂) := by
    simp only [loadContext]
    rw [heval1, heval]
    rfl
  refine ⟨_, hrun, ?_, ?_⟩
  · rw [show shallowMergeInto ([] : List (String × Value)) [(k, Value.arr vs)] =
      [(k, Value.arr vs)] from rfl]
    rw [shallow_lookup_none hm₂]
    simp [objLookup]
  · rw [loadListAux_length hload, hch]
    simp

/-- Witness for C4 at a concrete list of two text children and a keyed text
entry. -/
theorem rjsone_c4_amended_list_children_witness :
    parseContexts (("k" ++ ":..") :: (["+a", "+b"] ++ ["x:+c"])) =
      [Ctx.mk ("k" ++ ":..") "k" (ContentNode.listC
          (["+a", "+b"].map (fun s => Ctx.mk s "" (parseContent (rawContentOf s) (some "yaml"))))
          false "yaml"),
       topEntryOf "x:+c"] ∧
    ∃ M, loadContext mergeEnv false
        (parseContexts (("k" ++ ":..") :: (["+a", "+b"] ++ ["x:+c"]))) (Except.ok []) =
        Except.ok M ∧
      objLookup M "k" = some (Value.arr [Value.str "a", Value.str "b"]) ∧
      ([Value.str "a", Value.str "b"] : List Value).length =
        (["+a", "+b"] : List String).length :=
  rjsone_c4_amended_list_children mergeEnv "k" "x:+c" ["+a", "+b"]
    [Value.str "a", Value.str "b"] [("x", Value.str "c")]
    (by decide) (by decide) (by rfl) (by decide) (by decide) (by rfl) (by rfl) (by rfl)

theorem parseContent_dash_function {cmd : String} (hc0 : cmd ≠ "") (hc1 : ':' ∉ cmd.toList)
    (hc2 : headIs '-' cmd = false) :
    parseContent ("-" ++ cmd) (some "yaml") = ContentNode.functionC false false cmd ∧
    listChildArg ("-" ++ cmd) ∧ rawContentOf ("-" ++ cmd) = "-" ++ cmd := by
  have htl : ("-" ++ cmd).toList = '-' :: cmd.toList := by
    rw [toList_append]
    rfl
  have hcolon : ':' ∉ ("-" ++ cmd).toList := by
    rw [htl]
    simp only [List.mem_cons, not_or]
    exact ⟨by decide, hc1⟩
  obtain ⟨hkey, hraw⟩ := unkeyed_arg_parts htl (by decide) hcolon
  have hpf : parseFormat ("-" ++ cmd) = (none, "-" ++ cmd) := by
    have hcol : headIs ':' ("-" ++ cmd) = false := by
      rw [headIs_of_cons htl]
      rfl
    simp [parseFormat, hcol]
  have hne1 : ("-" ++ cmd) ≠ ".." := by
    intro he
    have h2 := congrArg String.toList he
    rw [htl] at h2
    have h3 : '-' :: cmd.toList = ['.', '.'] := h2
    injection h3 with hhead _
    exact absurd hhead (by decide)
  have hne2 : ("-" ++ cmd) ≠ "..." := by
    intro he
    have h2 := congrArg String.toList he
    rw [htl] at h2
    have h3 : '-' :: cmd.toList = ['.', '.', '.'] := h2
    injection h3 with hhead _
    exact absurd hhead (by decide)
  have hne3 : ("-" ++ cmd) ≠ "-" := by
    intro he
    have h2 := congrArg String.toList he
    rw [htl] at h2
    have h3 : '-' :: cmd.toList = ['-'] := h2
    injection h3 with _ htail
    exact hc0 (by rw [← strMk_toList cmd, htail])
  have hh2 : headIs2 '-' '-' ("-" ++ cmd) = false := by
    unfold headIs2
    rw [htl]
    cases hcl : cmd.toList with
    | nil => rfl
    | cons y ys =>
      have hy := headIs_of_cons (c := '-') hcl
      rw [hy] at hc2
      simp [hc2]
  have hplus : headIs '+' ("-" ++ cmd) = false := by
    rw [headIs_of_cons htl]
    rfl
  have hdash : headIs '-' ("-" ++ cmd) = true := by
    rw [headIs_of_cons htl]
    rfl
  have hdrop : strDrop 1 ("-" ++ cmd) = cmd := by
    rw [strDrop_one htl]
    exact strMk_toList cmd
  refine ⟨?_, ⟨hkey, ?_, ?_⟩, hraw⟩
  · simp [parseContent, hpf, resolveFormat, classifyData, hne1, hne2, hplus, hne3, hh2,
      hdash, hdrop]
  · rw [dataTokenOf, hraw, hpf]
    exact hne1
  · rw [dataTokenOf, hraw, hpf]
    exact hne2

/-- C10 (amended): an argument parsed as a Function node does become a list
child implicitly: while a list is open, an unkeyed `-command` argument is
appended to the open list's children (with rawInput inherited from the
list's resolved child format), rather than becoming a top-level entry. -/
theorem rjsone_c10_amended_function_child (k cmd : String)
    (hk0 : k ≠ "") (hk : ':' ∉ k.toList) (hkp : headIs '+' k = false)
    (hc0 : cmd ≠ "") (hc1 : ':' ∉ cmd.toList) (hc2 : headIs '-' cmd = false) :
    parseContexts [k ++ ":..", "-" ++ cmd] =
      [Ctx.mk (k ++ ":..") k
        (ContentNode.listC [Ctx.mk ("-" ++ cmd) "" (ContentNode.functionC false false cmd)]
          false "yaml")] := by
  obtain ⟨hpc, hchild, hraw1⟩ := parseContent_dash_function hc0 hc1 hc2
  have htl0 : (k ++ ":..").toList = k.toList ++ ':' :: "..".toList := by
    rw [toList_append]
    rfl
  obtain ⟨hkey0, hraw0⟩ := keyed_arg_parts htl0 hk hkp
  have hkey0' : argKeyOf (k ++ ":..") ≠ "" := by rw [hkey0]; exact hk0
  have hraw0' : parseContent (rawContentOf (k ++ ":..")) none =
      ContentNode.listC [] false "yaml" := by
    rw [hraw0]
    rfl
  show flushOpen (List.foldl parseStep ([], none) [k ++ ":..", "-" ++ cmd]) = _
  rw [List.foldl_cons, parseStep_open hkey0' hraw0']
  rw [show (flushOpen ([], none) : List Ctx) = [] from rfl]
  rw [List.foldl_cons, List.foldl_nil]
  rw [parseStep_child [] _ _ hchild]
  simp [flushOpen, hkey0, hraw1, hpc]

/-- Witness for C10 at a concrete key and command. -/
theorem rjsone_c10_amended_function_child_witness :
    parseContexts ["b64" ++ ":..", "-" ++ "base64 -d"] =
      [Ctx.mk ("b64" ++ ":..") "b64"
        (ContentNode.listC [Ctx.mk ("-" ++ "base64 -d") ""
            (ContentNode.functionC false false "base64 -d")] false "yaml")] :=
  rjsone_c10_amended_function_child "b64" "base64 -d" (by decide) (by decide) (by rfl)
    (by decide) (by decide) (by rfl)

end Rjsone
